import Mathlib

/-!
Shallow embedding of the clustering core of PBxplore (PBlib.py and PBclust.py):
the PB alphabet, the positional substitution scorer, the substitution-matrix
loader, the distance-matrix builder and the legacy PBclust scorer, together
with theorems checking the specification's claims about them.

Numeric scores are modelled as rationals; sequences as lists of characters.
Fallible Python code (assert / raise) is modelled with `Except`.
-/

set_option maxRecDepth 16384

namespace PB

/-- The 16 protein block names; `NAMES = 'abcdefghijklmnop'` in PBlib.py. -/
def NAMES : List Char :=
  ['a', 'b', 'c', 'd', 'e', 'f', 'g', 'h', 'i', 'j', 'k', 'l', 'm', 'n', 'o', 'p']

/-- Errors raised by the scoring functions of PBlib.py:
`sizeError` models the `assert len(seq1) == len(seq2)` failure (the message
carries both sequences), `invalidBlock` models `InvalidBlockError` (the payload
carries the offending blocks, as in `InvalidBlockError(', '.join(invalid))`). -/
inductive ScoreError
  | sizeError (seq1 seq2 : List Char)
  | invalidBlock (blocks : List Char)
  deriving DecidableEq

/-- `mat[i][j]`: 2D indexing into a matrix given as a list of rows. -/
def lookup (mat : List (List ℚ)) (i j : ℕ) : ℚ := (mat.getD i []).getD j 0

/-- The invalid blocks collected before raising `InvalidBlockError` in
`compute_score_by_position`: `for pb in (pb1, pb2): if not pb in NAMES: invalid.append(pb)`. -/
def invalidsOf (pb1 pb2 : Char) : List Char :=
  [pb1, pb2].filter (fun pb => decide (pb ∉ NAMES))

/-- The loop of `compute_score_by_position` (PBlib.py, lines 442-454) over the
zipped pairs of `seq1` and `seq2`: score 0 when either block lowercases to `z`,
the matrix entry when both blocks are PB names, and `InvalidBlockError` otherwise. -/
def scorePairs (score_mat : List (List ℚ)) : List (Char × Char) → Except ScoreError (List ℚ)
  | [] => .ok []
  | (pb1, pb2) :: rest =>
    if pb1.toLower = 'z' ∨ pb2.toLower = 'z' then
      (scorePairs score_mat rest).map (fun tl => 0 :: tl)
    else if pb1 ∈ NAMES ∧ pb2 ∈ NAMES then
      (scorePairs score_mat rest).map
        (fun tl => lookup score_mat (NAMES.indexOf pb1) (NAMES.indexOf pb2) :: tl)
    else
      .error (.invalidBlock (invalidsOf pb1 pb2))

/-- `compute_score_by_position` (PBlib.py, lines 418-454). -/
def compute_score_by_position (score_mat : List (List ℚ)) (seq1 seq2 : List Char) :
    Except ScoreError (List ℚ) :=
  if seq1.length = seq2.length then scorePairs score_mat (seq1.zip seq2)
  else .error (.sizeError seq1 seq2)

/-- `substitution_score` (PBlib.py, lines 521-530): the sum of the positional scores. -/
def substitution_score (substitution_matrix : List (List ℚ)) (seqA seqB : List Char) :
    Except ScoreError ℚ :=
  (compute_score_by_position substitution_matrix seqA seqB).map (fun scores => scores.sum)

/-- Minimum of a list of rationals (`numpy.min`); junk value 0 on the empty list,
which numpy rejects and no caller below reaches. -/
def listMin : List ℚ → ℚ
  | [] => 0
  | [x] => x
  | x :: y :: rest => min x (listMin (y :: rest))

/-- Maximum of a list of rationals (`numpy.max`); junk value 0 on the empty list. -/
def listMax : List ℚ → ℚ
  | [] => 0
  | [x] => x
  | x :: y :: rest => max x (listMax (y :: rest))

/-- `numpy.min` over a whole 2D matrix. -/
def matMin (mat : List (List ℚ)) : ℚ := listMin mat.flatten

/-- `numpy.max` over a whole 2D matrix. -/
def matMax (mat : List (List ℚ)) : ℚ := listMax mat.flatten

/-- `mat.diagonal()`: the list of diagonal entries. -/
def diagOf (mat : List (List ℚ)) : List ℚ :=
  (List.range mat.length).map (fun i => lookup mat i i)

/-- The diagonal flattening step of `distance_matrix` (PBlib.py, lines 506-508):
`diag_maxi = numpy.max(distance_mat.diagonal()); numpy.fill_diagonal(distance_mat, diag_maxi)`. -/
def flattenDiagonal (mat : List (List ℚ)) : List (List ℚ) :=
  (List.range mat.length).map (fun i =>
    (List.range (mat.getD i []).length).map (fun j =>
      if i = j then listMax (diagOf mat) else lookup mat i j))

/-- Run a fallible computation over a list, collecting the results and stopping
at the first error. -/
def collectE {ε α β : Type} (f : α → Except ε β) : List α → Except ε (List β)
  | [] => .ok []
  | a :: rest => do
    let b ← f a
    let bs ← collectE f rest
    pure (b :: bs)

/-- The raw similarity score stored at cell (i, j) of the distance matrix being
built: the pair loop of `distance_matrix` (PBlib.py, lines 498-504) computes the
score once for i ≤ j and mirrors it into both cells. -/
def rawScore (substitution_mat : List (List ℚ)) (sequences : List (List Char)) (i j : ℕ) :
    Except ScoreError ℚ :=
  substitution_score substitution_mat (sequences.getD (min i j) []) (sequences.getD (max i j) [])

/-- The raw (pre-flattening, pre-normalization) score matrix of `distance_matrix`. -/
def rawMatrix (substitution_mat : List (List ℚ)) (sequences : List (List Char)) :
    Except ScoreError (List (List ℚ)) :=
  collectE
    (fun i => collectE (fun j => rawScore substitution_mat sequences i j)
      (List.range sequences.length))
    (List.range sequences.length)

/-- Failures of `distance_matrix`: a scoring error propagated from
`compute_score_by_position`; `degenerate` for `maxi == mini`, where the numpy
division yields NaN everywhere and the final assertions necessarily fail; and
`assertionFailed` for a failure of the three final `assert` statements
(PBlib.py, lines 515-517). -/
inductive DistError
  | scoreError (e : ScoreError)
  | degenerate
  | assertionFailed
  deriving DecidableEq

/-- `distance_matrix` (PBlib.py, lines 488-518): raw pairwise similarity scores,
diagonal flattened to the maximum self-score, then the affine conversion
`1 - (score - mini)/(maxi - mini)`, checked by the final assertions. -/
def distance_matrix (sequences : List (List Char)) (substitution_mat : List (List ℚ)) :
    Except DistError (List (List ℚ)) :=
  match rawMatrix substitution_mat sequences with
  | .error e => .error (.scoreError e)
  | .ok raw =>
    let flat := flattenDiagonal raw
    let mini := matMin flat
    let maxi := matMax flat
    if maxi = mini then .error .degenerate
    else
      let dist := flat.map (fun row => row.map (fun x => 1 - (x - mini) / (maxi - mini)))
      if 0 ≤ matMin dist ∧ matMax dist ≤ 1 ∧ (diagOf dist).sum = 0 then .ok dist
      else .error .assertionFailed

/-- The parsed table has numpy shape (16, 16). -/
abbrev IsValidMatrix (mat : List (List ℚ)) : Prop :=
  mat.length = 16 ∧ ∀ row ∈ mat, row.length = 16

/-- A 16x16 table is symmetric on all in-range index pairs. -/
abbrev IsSymmetric16 (mat : List (List ℚ)) : Prop :=
  ∀ i, i < 16 → ∀ j, j < 16 → lookup mat i j = lookup mat j i

/-- Every character of the sequence is a PB name (hence not the wildcard). -/
abbrev ValidSeq (s : List Char) : Prop := ∀ c ∈ s, c ∈ NAMES

/-- Failures of `load_substitution_matrix` (PBlib.py, lines 192-218):
`formatError` models the shape assertion 'wrong substitution matrix size',
`asymmetry i j` the `ValueError("Matrix is not symetric - idx {} and {}")`. -/
inductive MatrixLoadError
  | formatError
  | asymmetry (i j : ℕ)
  deriving DecidableEq

/-- The symmetry scan of `load_substitution_matrix`: the first index pair, in
row-major order of the given pair list, at which the matrix is asymmetric. -/
def firstAsymmetry (mat : List (List ℚ)) : List (ℕ × ℕ) → Option (ℕ × ℕ)
  | [] => none
  | (i, j) :: rest =>
    if lookup mat i j ≠ lookup mat j i then some (i, j) else firstAsymmetry mat rest

/-- The index pairs visited by the nested loops
`for i in range(len(mat)): for j in range(len(mat[0]))`, in row-major order. -/
def rowMajorPairs (n m : ℕ) : List (ℕ × ℕ) :=
  (List.range n).flatMap (fun i => (List.range m).map (fun j => (i, j)))

/-- `load_substitution_matrix` (PBlib.py, lines 192-218), applied to the table
parsed by `numpy.loadtxt`: asserts the (16, 16) shape, then raises at the first
asymmetric index pair, and otherwise returns the table unchanged. -/
def load_substitution_matrix (mat : List (List ℚ)) : Except MatrixLoadError (List (List ℚ)) :=
  if mat.length = 16 ∧ ∀ row ∈ mat, row.length = 16 then
    match firstAsymmetry mat (rowMajorPairs mat.length (mat.getD 0 []).length) with
    | some (i, j) => .error (.asymmetry i j)
    | none => .ok mat
  else .error .formatError

/-- `seq.lower().replace("z", "")` from `compute_score` (PBclust.py, lines 43-45). -/
def stripWildcards (seq : List Char) : List Char :=
  (seq.map Char.toLower).filter (fun c => decide (c ≠ 'z'))

/-- `compute_score` (PBclust.py, lines 39-48): asserts equal input lengths, then
removes the wildcards from both sequences, zips what remains (so `zip` truncates
to the shorter stripped sequence) and accumulates the matrix entries. -/
def clust_compute_score (substitution_matrix : List (List ℚ)) (seq1 seq2 : List Char) :
    Option ℚ :=
  if seq1.length = seq2.length then
    some (((stripWildcards seq1).zip (stripWildcards seq2)).foldl
      (fun score p => score + lookup substitution_matrix (NAMES.indexOf p.1) (NAMES.indexOf p.2))
      0)
  else none

/-- Python truthiness of the `--clusters` option value: `None` and `0` are falsy. -/
def optTruthy (o : Option Int) : Bool :=
  match o with
  | none => false
  | some v => v != 0

/-- The cluster-count validation of PBclust.py (lines 119-124):
`if options.clusters_nb and options.clusters_nb <= 0: parser.error(...)`
followed by `if not options.clusters_nb: options.clusters_nb = 5`.
Returns the effective cluster count, or an error when the parser exits. -/
def check_clusters_nb (clusters_nb : Option Int) : Except Unit Int :=
  if optTruthy clusters_nb ∧ clusters_nb.getD 0 ≤ 0 then .error ()
  else if !optTruthy clusters_nb then .ok 5
  else .ok (clusters_nb.getD 0)

/-- Build a 16x16 matrix from an entry function. -/
def mkMatrix16 (f : ℕ → ℕ → ℚ) : List (List ℚ) :=
  (List.range 16).map (fun i => (List.range 16).map (fun j => f i j))

/-- A 16x16 symmetric matrix whose self-scores differ: entry (0,0) is 1,
entry (1,1) is 3, entries (0,1) and (1,0) are 2, all others 0. -/
def exMatDiag : List (List ℚ) :=
  mkMatrix16 (fun i j =>
    if i = 0 ∧ j = 0 then 1
    else if i = 1 ∧ j = 1 then 3
    else if (i = 0 ∧ j = 1) ∨ (i = 1 ∧ j = 0) then 2
    else 0)

/-- A 16x16 symmetric matrix whose only nonzero entries are the off-diagonal
cells (0,1) and (1,0), both 5: the maximum similarity is attained off-diagonal. -/
def exMatOffDiag : List (List ℚ) :=
  mkMatrix16 (fun i j => if (i = 0 ∧ j = 1) ∨ (i = 1 ∧ j = 0) then 5 else 0)

/-- The 16x16 identity-pattern matrix: 1 on the diagonal, 0 elsewhere. -/
def exMatId : List (List ℚ) :=
  mkMatrix16 (fun i j => if i = j then 1 else 0)

/-- A 16x16 symmetric matrix with dominant diagonal: 2 on the diagonal,
1 at (0,1) and (1,0), 0 elsewhere. -/
def exMatGood : List (List ℚ) :=
  mkMatrix16 (fun i j =>
    if i = j then 2 else if (i = 0 ∧ j = 1) ∨ (i = 1 ∧ j = 0) then 1 else 0)

/-- A 16x16 matrix that is not symmetric: entry (0,1) is 1, entry (1,0) is 0. -/
def exMatAsym : List (List ℚ) :=
  mkMatrix16 (fun i j => if i = 0 ∧ j = 1 then 1 else 0)

/-- Row-major (lexicographic) order on index pairs: the order in which the
symmetry scan of `load_substitution_matrix` visits the cells. -/
def lexLt (p q : ℕ × ℕ) : Prop := p.1 < q.1 ∨ (p.1 = q.1 ∧ p.2 < q.2)

instance {ε α : Type} [DecidableEq ε] [DecidableEq α] : DecidableEq (Except ε α) := fun x y =>
  match x, y with
  | .ok a, .ok b =>
    if h : a = b then .isTrue (by rw [h]) else .isFalse (by intro hc; cases hc; exact h rfl)
  | .error a, .error b =>
    if h : a = b then .isTrue (by rw [h]) else .isFalse (by intro hc; cases hc; exact h rfl)
  | .ok _, .error _ => .isFalse (by intro hc; cases hc)
  | .error _, .ok _ => .isFalse (by intro hc; cases hc)

/-! ### Helper lemmas -/

theorem getD_map_range {α : Type} (f : ℕ → α) {n i : ℕ} (d : α) (h : i < n) :
    ((List.range n).map f).getD i d = f i := by
  rw [List.getD_eq_getElem?_getD, List.getElem?_map, List.getElem?_range h]
  rfl

theorem getD_map_of_lt {α β : Type} (f : α → β) (l : List α) {i : ℕ} (d : β) (d' : α)
    (h : i < l.length) : (l.map f).getD i d = f (l.getD i d') := by
  rw [List.getD_eq_getElem?_getD, List.getElem?_map, List.getElem?_eq_getElem h,
    List.getD_eq_getElem?_getD, List.getElem?_eq_getElem h]
  rfl

theorem getD_mem {α : Type} (l : List α) {i : ℕ} (d : α) (h : i < l.length) :
    l.getD i d ∈ l := by
  rw [List.getD_eq_getElem?_getD, List.getElem?_eq_getElem h]
  exact List.getElem_mem h

theorem zip_getD {α β : Type} :
    ∀ (l1 : List α) (l2 : List β) (i : ℕ) (d1 : α) (d2 : β), i < l1.length → i < l2.length →
      (l1.zip l2).getD i (d1, d2) = (l1.getD i d1, l2.getD i d2)
  | _ :: _, _ :: _, 0, _, _, _, _ => rfl
  | a :: t1, b :: t2, i + 1, d1, d2, h1, h2 =>
    zip_getD t1 t2 i d1 d2 (Nat.lt_of_succ_lt_succ h1) (Nat.lt_of_succ_lt_succ h2)
  | [], _, _, _, _, h1, _ => absurd h1 (by simp)
  | _ :: _, [], _, _, _, _, h2 => absurd h2 (by simp)

theorem listMin_le : ∀ {l : List ℚ} {x : ℚ}, x ∈ l → listMin l ≤ x
  | [a], x, hx => by
    simp only [List.mem_singleton] at hx
    simp [listMin, hx]
  | a :: b :: t, x, hx => by
    rcases List.mem_cons.mp hx with h | h
    · subst h
      simp only [listMin]
      exact min_le_left _ _
    · exact le_trans (min_le_right _ _) (listMin_le h)

theorem le_listMax : ∀ {l : List ℚ} {x : ℚ}, x ∈ l → x ≤ listMax l
  | [a], x, hx => by
    simp only [List.mem_singleton] at hx
    simp [listMax, hx]
  | a :: b :: t, x, hx => by
    rcases List.mem_cons.mp hx with h | h
    · subst h
      simp only [listMax]
      exact le_max_left _ _
    · exact le_trans (le_listMax h) (le_max_right _ _)

theorem all_zero_of_sum_zero_nonneg :
    ∀ {l : List ℚ}, (∀ x ∈ l, 0 ≤ x) → l.sum = 0 → ∀ x ∈ l, x = 0
  | [], _, _, _, hx => absurd hx (by simp)
  | a :: t, hpos, hsum, x, hx => by
    rw [List.sum_cons] at hsum
    have hta : 0 ≤ t.sum := List.sum_nonneg (fun y hy => hpos y (List.mem_cons_of_mem a hy))
    have ha0 : 0 ≤ a := hpos a (List.mem_cons_self a t)
    have haz : a = 0 := le_antisymm (by linarith) ha0
    have htz : t.sum = 0 := by linarith
    rcases List.mem_cons.mp hx with h | h
    · exact h ▸ haz
    · exact all_zero_of_sum_zero_nonneg (fun y hy => hpos y (List.mem_cons_of_mem a hy)) htz x h

theorem collectE_ok_forall₂ {ε α β : Type} (f : α → Except ε β) :
    ∀ {l : List α} {ys : List β}, collectE f l = .ok ys →
      List.Forall₂ (fun a b => f a = .ok b) l ys := by
  intro l
  induction l with
  | nil =>
    intro ys h
    cases h
    exact List.Forall₂.nil
  | cons a rest ih =>
    intro ys h
    simp only [collectE, bind, Except.bind] at h
    cases hfa : f a with
    | error e => rw [hfa] at h; cases h
    | ok b =>
      rw [hfa] at h
      cases hrest : collectE f rest with
      | error e => rw [hrest] at h; cases h
      | ok bs =>
        rw [hrest] at h
        cases h
        exact List.Forall₂.cons hfa (ih hrest)

theorem forall₂_getD {α β : Type} {R : α → β → Prop} {l1 : List α} {l2 : List β}
    (h : List.Forall₂ R l1 l2) {i : ℕ} (d1 : α) (d2 : β) (hi : i < l1.length) :
    R (l1.getD i d1) (l2.getD i d2) := by
  obtain ⟨hlen, hget⟩ := List.forall₂_iff_get.mp h
  have hi2 : i < l2.length := hlen ▸ hi
  have hr := hget i hi hi2
  rw [List.getD_eq_getElem?_getD, List.getElem?_eq_getElem hi,
    List.getD_eq_getElem?_getD, List.getElem?_eq_getElem hi2]
  simpa using hr

theorem range_getD {n i : ℕ} (d : ℕ) (h : i < n) : (List.range n).getD i d = i := by
  rw [List.getD_eq_getElem?_getD, List.getElem?_range h]
  rfl

theorem rawMatrix_ok {m : List (List ℚ)} {seqs : List (List Char)} {raw : List (List ℚ)}
    (h : rawMatrix m seqs = .ok raw) :
    raw.length = seqs.length ∧
    (∀ i, i < seqs.length → (raw.getD i []).length = seqs.length) ∧
    (∀ i j, i < seqs.length → j < seqs.length → rawScore m seqs i j = .ok (lookup raw i j)) := by
  have h2 := collectE_ok_forall₂ _ h
  have hlen : raw.length = seqs.length := by
    have := h2.length_eq
    simpa using this.symm
  have hrow : ∀ i, i < seqs.length →
      collectE (fun j => rawScore m seqs i j) (List.range seqs.length) = .ok (raw.getD i []) := by
    intro i hi
    have hi' : i < (List.range seqs.length).length := by simpa using hi
    have := forall₂_getD h2 0 [] hi'
    rwa [range_getD 0 hi] at this
  refine ⟨hlen, ?_, ?_⟩
  · intro i hi
    have h3 := collectE_ok_forall₂ _ (hrow i hi)
    have := h3.length_eq
    simpa using this.symm
  · intro i j hi hj
    have h3 := collectE_ok_forall₂ _ (hrow i hi)
    have hj' : j < (List.range seqs.length).length := by simpa using hj
    have := forall₂_getD h3 0 0 hj'
    rwa [range_getD 0 hj] at this

theorem rawScore_symm (m : List (List ℚ)) (seqs : List (List Char)) (i j : ℕ) :
    rawScore m seqs i j = rawScore m seqs j i := by
  unfold rawScore
  rw [Nat.min_comm, Nat.max_comm]

theorem rawMatrix_symm {m : List (List ℚ)} {seqs : List (List Char)} {raw : List (List ℚ)}
    (h : rawMatrix m seqs = .ok raw) {i j : ℕ} (hi : i < seqs.length) (hj : j < seqs.length) :
    lookup raw i j = lookup raw j i := by
  have h3 := (rawMatrix_ok h).2.2
  have e1 := h3 i j hi hj
  have e2 := h3 j i hj hi
  rw [rawScore_symm] at e1
  exact Except.ok.inj (e1.symm.trans e2)

theorem flattenDiagonal_length (mat : List (List ℚ)) :
    (flattenDiagonal mat).length = mat.length := by
  simp [flattenDiagonal]

theorem flattenDiagonal_row_length (mat : List (List ℚ)) {i : ℕ} (h : i < mat.length) :
    ((flattenDiagonal mat).getD i []).length = (mat.getD i []).length := by
  unfold flattenDiagonal
  rw [getD_map_range _ _ h]
  simp

theorem flattenDiagonal_lookup (mat : List (List ℚ)) {i j : ℕ} (hi : i < mat.length)
    (hj : j < (mat.getD i []).length) :
    lookup (flattenDiagonal mat) i j = if i = j then listMax (diagOf mat) else lookup mat i j := by
  unfold lookup flattenDiagonal
  rw [getD_map_range _ _ hi, getD_map_range _ _ hj]
  rfl

theorem map_map_lookup (g : ℚ → ℚ) (mat : List (List ℚ)) {i j : ℕ} (hi : i < mat.length)
    (hj : j < (mat.getD i []).length) :
    lookup (mat.map (fun row => row.map g)) i j = g (lookup mat i j) := by
  unfold lookup
  rw [getD_map_of_lt _ _ [] [] hi, getD_map_of_lt _ _ 0 0 hj]

theorem lookup_mem_flatten {mat : List (List ℚ)} {i j : ℕ} (hi : i < mat.length)
    (hj : j < (mat.getD i []).length) : lookup mat i j ∈ mat.flatten := by
  rw [List.mem_flatten]
  exact ⟨mat.getD i [], getD_mem _ _ hi, getD_mem _ _ hj⟩

theorem lookup_mem_diagOf {mat : List (List ℚ)} {i : ℕ} (hi : i < mat.length) :
    lookup mat i i ∈ diagOf mat := by
  unfold diagOf
  exact List.mem_map.mpr ⟨i, List.mem_range.mpr hi, rfl⟩

theorem distance_matrix_ok {seqs : List (List Char)} {m D : List (List ℚ)}
    (h : distance_matrix seqs m = .ok D) :
    ∃ raw, rawMatrix m seqs = .ok raw ∧
      D = (flattenDiagonal raw).map (fun row => row.map (fun x =>
        1 - (x - matMin (flattenDiagonal raw)) /
          (matMax (flattenDiagonal raw) - matMin (flattenDiagonal raw)))) ∧
      0 ≤ matMin D ∧ matMax D ≤ 1 ∧ (diagOf D).sum = 0 := by
  unfold distance_matrix at h
  cases hr : rawMatrix m seqs with
  | error e => rw [hr] at h; cases h
  | ok raw =>
    rw [hr] at h
    dsimp only at h
    refine ⟨raw, rfl, ?_⟩
    by_cases hdeg : matMax (flattenDiagonal raw) = matMin (flattenDiagonal raw)
    · rw [if_pos hdeg] at h; cases h
    · rw [if_neg hdeg] at h
      by_cases hcheck : 0 ≤ matMin ((flattenDiagonal raw).map (fun row => row.map (fun x =>
            1 - (x - matMin (flattenDiagonal raw)) /
              (matMax (flattenDiagonal raw) - matMin (flattenDiagonal raw))))) ∧
          matMax ((flattenDiagonal raw).map (fun row => row.map (fun x =>
            1 - (x - matMin (flattenDiagonal raw)) /
              (matMax (flattenDiagonal raw) - matMin (flattenDiagonal raw))))) ≤ 1 ∧
          (diagOf ((flattenDiagonal raw).map (fun row => row.map (fun x =>
            1 - (x - matMin (flattenDiagonal raw)) /
              (matMax (flattenDiagonal raw) - matMin (flattenDiagonal raw)))))).sum = 0
      · rw [if_pos hcheck] at h
        cases h
        exact ⟨rfl, hcheck⟩
      · rw [if_neg hcheck] at h
        cases h

theorem firstAsymmetry_none {mat : List (List ℚ)} :
    ∀ {l : List (ℕ × ℕ)}, firstAsymmetry mat l = none →
      ∀ p ∈ l, lookup mat p.1 p.2 = lookup mat p.2 p.1
  | [], _, _, hp => absurd hp (by simp)
  | (i, j) :: rest, h, p, hp => by
    rw [firstAsymmetry] at h
    by_cases hsym : lookup mat i j ≠ lookup mat j i
    · rw [if_pos hsym] at h; cases h
    · rw [if_neg hsym] at h
      rcases List.mem_cons.mp hp with hh | hh
      · subst hh
        exact not_not.mp hsym
      · exact firstAsymmetry_none h p hh

theorem firstAsymmetry_some {mat : List (List ℚ)} :
    ∀ {l : List (ℕ × ℕ)} {i j : ℕ}, firstAsymmetry mat l = some (i, j) →
      ∃ l₁ l₂, l = l₁ ++ (i, j) :: l₂ ∧
        (∀ p ∈ l₁, lookup mat p.1 p.2 = lookup mat p.2 p.1) ∧
        lookup mat i j ≠ lookup mat j i
  | [], _, _, h => by cases h
  | (a, b) :: rest, i, j, h => by
    rw [firstAsymmetry] at h
    by_cases hsym : lookup mat a b ≠ lookup mat b a
    · rw [if_pos hsym] at h
      cases h
      exact ⟨[], rest, rfl, by simp, hsym⟩
    · rw [if_neg hsym] at h
      obtain ⟨l₁, l₂, heq, hall, hne⟩ := firstAsymmetry_some h
      refine ⟨(a, b) :: l₁, l₂, by rw [heq]; rfl, ?_, hne⟩
      intro p hp
      rcases List.mem_cons.mp hp with hh | hh
      · subst hh
        exact not_not.mp hsym
      · exact hall p hh

theorem mem_rowMajorPairs {n m : ℕ} {p : ℕ × ℕ} :
    p ∈ rowMajorPairs n m ↔ p.1 < n ∧ p.2 < m := by
  cases p with
  | mk a b =>
    simp only [rowMajorPairs, List.mem_flatMap, List.mem_map, List.mem_range]
    constructor
    · rintro ⟨i, hi, j, hj, hij⟩
      cases hij
      exact ⟨hi, hj⟩
    · rintro ⟨ha, hb⟩
      exact ⟨a, ha, b, hb, rfl⟩

theorem lexLt_asymm {p q : ℕ × ℕ} (h1 : lexLt p q) (h2 : lexLt q p) : False := by
  rcases h1 with h1 | ⟨h1, h1'⟩ <;> rcases h2 with h2 | ⟨h2, h2'⟩ <;> omega

theorem rowMajorPairs_pairwise (n m : ℕ) : List.Pairwise lexLt (rowMajorPairs n m) := by
  induction n with
  | zero => simp [rowMajorPairs]
  | succ k ih =>
    have hsplit : rowMajorPairs (k + 1) m =
        rowMajorPairs k m ++ (List.range m).map (fun j => (k, j)) := by
      unfold rowMajorPairs
      rw [List.range_succ, List.flatMap_append]
      simp
    rw [hsplit, List.pairwise_append]
    refine ⟨ih, ?_, ?_⟩
    · rw [List.pairwise_map]
      exact (List.pairwise_lt_range m).imp (fun h => Or.inr ⟨rfl, h⟩)
    · intro a ha b hb
      have ha1 : a.1 < k := (mem_rowMajorPairs.mp ha).1
      obtain ⟨j, _, hjb⟩ := List.mem_map.mp hb
      left
      rw [← hjb]
      exact ha1

theorem names_ne_z : ∀ c ∈ NAMES, ¬ c.toLower = 'z' := by decide

theorem invalidsOf_ne_nil {pb1 pb2 : Char} (h : pb1 ∉ NAMES ∨ pb2 ∉ NAMES) :
    invalidsOf pb1 pb2 ≠ [] := by
  unfold invalidsOf
  rcases h with h | h
  · intro hnil
    have : pb1 ∈ [pb1, pb2].filter (fun pb => decide (pb ∉ NAMES)) :=
      List.mem_filter.mpr ⟨by simp, by simpa using h⟩
    rw [hnil] at this
    cases this
  · intro hnil
    have : pb2 ∈ [pb1, pb2].filter (fun pb => decide (pb ∉ NAMES)) :=
      List.mem_filter.mpr ⟨by simp, by simpa using h⟩
    rw [hnil] at this
    cases this

theorem scorePairs_ok_wildcard {m : List (List ℚ)} :
    ∀ {ps : List (Char × Char)} {v : List ℚ} {i : ℕ},
      scorePairs m ps = .ok v → i < ps.length →
      (ps.getD i ('a', 'a')).1.toLower = 'z' ∨ (ps.getD i ('a', 'a')).2.toLower = 'z' →
      v.getD i 0 = 0 := by
  intro ps
  induction ps with
  | nil =>
    intro v i _ hi _
    simp at hi
  | cons hd tl ih =>
    intro v i hok hi hw
    obtain ⟨pb1, pb2⟩ := hd
    rw [scorePairs] at hok
    by_cases hz : pb1.toLower = 'z' ∨ pb2.toLower = 'z'
    · rw [if_pos hz] at hok
      cases hrest : scorePairs m tl with
      | error e => rw [hrest] at hok; cases hok
      | ok w =>
        rw [hrest] at hok
        cases hok
        cases i with
        | zero => rfl
        | succ i' =>
          have hg : ((fun tl => (0 : ℚ) :: tl) w).getD (i' + 1) 0 = w.getD i' 0 := rfl
          rw [hg]
          exact ih hrest (by simpa using hi) (by simpa using hw)
    · rw [if_neg hz] at hok
      by_cases hv : pb1 ∈ NAMES ∧ pb2 ∈ NAMES
      · rw [if_pos hv] at hok
        cases hrest : scorePairs m tl with
        | error e => rw [hrest] at hok; cases hok
        | ok w =>
          rw [hrest] at hok
          cases hok
          cases i with
          | zero =>
            simp only [List.getD_cons_zero] at hw
            exact absurd hw hz
          | succ i' =>
            have hg : ((fun tl => lookup m (NAMES.indexOf pb1) (NAMES.indexOf pb2) :: tl) w).getD
                (i' + 1) 0 = w.getD i' 0 := rfl
            rw [hg]
            exact ih hrest (by simpa using hi) (by simpa using hw)
      · rw [if_neg hv] at hok
        cases hok

theorem scorePairs_invalid {m : List (List ℚ)} :
    ∀ {ps : List (Char × Char)},
      (∃ p ∈ ps, ¬p.1.toLower = 'z' ∧ ¬p.2.toLower = 'z' ∧ (p.1 ∉ NAMES ∨ p.2 ∉ NAMES)) →
      ∃ q ∈ ps, ¬q.1.toLower = 'z' ∧ ¬q.2.toLower = 'z' ∧ (q.1 ∉ NAMES ∨ q.2 ∉ NAMES) ∧
        scorePairs m ps = .error (.invalidBlock (invalidsOf q.1 q.2)) := by
  intro ps
  induction ps with
  | nil =>
    rintro ⟨p, hp, _⟩
    exact absurd hp (by simp)
  | cons hd tl ih =>
    rintro ⟨p, hp, hp1, hp2, hp3⟩
    obtain ⟨pb1, pb2⟩ := hd
    by_cases hz : pb1.toLower = 'z' ∨ pb2.toLower = 'z'
    · have hptl : p ∈ tl := by
        rcases List.mem_cons.mp hp with hh | hh
        · exfalso
          rw [hh] at hp1 hp2
          rcases hz with hz | hz
          · exact hp1 hz
          · exact hp2 hz
        · exact hh
      obtain ⟨q, hq, hq1, hq2, hq3, hqe⟩ := ih ⟨p, hptl, hp1, hp2, hp3⟩
      refine ⟨q, List.mem_cons_of_mem _ hq, hq1, hq2, hq3, ?_⟩
      rw [scorePairs, if_pos hz, hqe]
      rfl
    · by_cases hv : pb1 ∈ NAMES ∧ pb2 ∈ NAMES
      · have hptl : p ∈ tl := by
          rcases List.mem_cons.mp hp with hh | hh
          · exfalso
            rw [hh] at hp3
            rcases hp3 with h3 | h3
            · exact h3 hv.1
            · exact h3 hv.2
          · exact hh
        obtain ⟨q, hq, hq1, hq2, hq3, hqe⟩ := ih ⟨p, hptl, hp1, hp2, hp3⟩
        refine ⟨q, List.mem_cons_of_mem _ hq, hq1, hq2, hq3, ?_⟩
        rw [scorePairs, if_neg hz, if_pos hv, hqe]
        rfl
      · push_neg at hz
        refine ⟨(pb1, pb2), List.mem_cons_self _ _, hz.1, hz.2, ?_, ?_⟩
        · by_cases h1 : pb1 ∈ NAMES
          · right
            intro h2
            exact hv ⟨h1, h2⟩
          · left
            exact h1
        · rw [scorePairs, if_neg (by push_neg; exact hz), if_neg hv]

theorem foldl_add_eq_sum (g : Char × Char → ℚ) :
    ∀ (l : List (Char × Char)) (a : ℚ),
      l.foldl (fun acc x => acc + g x) a = a + (l.map g).sum
  | [], a => by simp
  | x :: t, a => by
    rw [List.foldl_cons, foldl_add_eq_sum g t (a + g x), List.map_cons, List.sum_cons]
    ring

theorem scorePairs_self {m : List (List ℚ)} :
    ∀ (s : List Char), (∀ c ∈ s, c ∈ NAMES) →
      scorePairs m (s.zip s) = .ok (s.map (fun c => lookup m (NAMES.indexOf c) (NAMES.indexOf c)))
  | [], _ => rfl
  | c :: t, hs => by
    have hc : c ∈ NAMES := hs c (List.mem_cons_self c t)
    have hz : ¬(c.toLower = 'z' ∨ c.toLower = 'z') := fun h => names_ne_z c hc (h.elim id id)
    show scorePairs m ((c, c) :: t.zip t) = _
    rw [scorePairs, if_neg hz, if_pos ⟨hc, hc⟩,
      scorePairs_self t (fun x hx => hs x (List.mem_cons_of_mem c hx))]
    rfl

theorem mem_zip_getD {s1 s2 : List Char} {q : Char × Char} (h : q ∈ s1.zip s2) :
    ∃ j, j < s1.length ∧ j < s2.length ∧ s1.getD j 'a' = q.1 ∧ s2.getD j 'a' = q.2 := by
  obtain ⟨n, hn⟩ := List.mem_iff_get.mp h
  have hlen : (n : ℕ) < min s1.length s2.length := by
    rw [← List.length_zip]
    exact n.isLt
  have h1 : (n : ℕ) < s1.length := lt_of_lt_of_le hlen (min_le_left _ _)
  have h2 : (n : ℕ) < s2.length := lt_of_lt_of_le hlen (min_le_right _ _)
  have hc := zip_getD s1 s2 n 'a' 'a' h1 h2
  have hq : (s1.zip s2).getD (n : ℕ) ('a', 'a') = q := by
    rw [List.getD_eq_getElem?_getD, List.getElem?_eq_getElem n.isLt]
    simpa using hn
  have hcomb := hc.symm.trans hq
  exact ⟨n, h1, h2, congrArg Prod.fst hcomb, congrArg Prod.snd hcomb⟩

/-! ### Claim theorems -/

/-- C4: for every pair of equal-length sequences and every substitution matrix,
a position at which either symbol lowercases to the wildcard `z` contributes
exactly 0 to the per-position score vector returned by
`compute_score_by_position`, regardless of the symbol it is paired with. -/
theorem wildcard_position_scores_zero (m : List (List ℚ)) (s1 s2 : List Char) (v : List ℚ)
    (i : ℕ) (hlen : s1.length = s2.length)
    (hok : compute_score_by_position m s1 s2 = .ok v) (hi : i < s1.length)
    (hw : (s1.getD i 'a').toLower = 'z' ∨ (s2.getD i 'a').toLower = 'z') :
    v.getD i 0 = 0 := by
  unfold compute_score_by_position at hok
  rw [if_pos hlen] at hok
  have hi2 : i < s2.length := hlen ▸ hi
  have hzlen : i < (s1.zip s2).length := by
    rw [List.length_zip]
    exact lt_min hi hi2
  have hpair : (s1.zip s2).getD i ('a', 'a') = (s1.getD i 'a', s2.getD i 'a') :=
    zip_getD s1 s2 i 'a' 'a' hi hi2
  exact scorePairs_ok_wildcard hok hzlen (by rw [hpair]; exact hw)

theorem wildcard_position_scores_zero_witness :
    compute_score_by_position exMatId ['z', 'a'] ['a', 'a'] = .ok [0, 1] ∧
    ([(0 : ℚ), 1]).getD 0 0 = 0 :=
  ⟨by decide,
    wildcard_position_scores_zero exMatId ['z', 'a'] ['a', 'a'] [0, 1] 0 (by decide) (by decide)
      (by decide) (by decide)⟩

/-- C5 (code bug evidence): the cluster-count validation of PBclust.py silently
accepts a requested cluster count of 0 — Python's truthiness makes the
`clusters_nb <= 0` test unreachable for 0, after which the default of 5 is
substituted and clustering proceeds — even though the check's own error message
says the count must be strictly positive (negative counts are rejected, and a
missing option also defaults to 5). -/
theorem clusters_nb_zero_accepted :
    check_clusters_nb (some 0) = .ok 5 ∧
    check_clusters_nb none = .ok 5 ∧
    check_clusters_nb (some (-3)) = .error () ∧
    check_clusters_nb (some 2) = .ok 2 := by decide

/-- C6: for sequences of different lengths, `compute_score_by_position` fails
with the size assertion error, whose payload carries both sequences (hence both
lengths), and returns no score vector. -/
theorem score_length_mismatch_fails (m : List (List ℚ)) (s1 s2 : List Char)
    (h : s1.length ≠ s2.length) :
    compute_score_by_position m s1 s2 = .error (.sizeError s1 s2) ∧
    ∀ v, compute_score_by_position m s1 s2 ≠ .ok v := by
  unfold compute_score_by_position
  rw [if_neg h]
  exact ⟨rfl, fun v hv => by cases hv⟩

theorem score_length_mismatch_fails_witness :
    compute_score_by_position exMatId ['a'] ['a', 'b'] = .error (.sizeError ['a'] ['a', 'b']) ∧
    ∀ v, compute_score_by_position exMatId ['a'] ['a', 'b'] ≠ .ok v :=
  score_length_mismatch_fails exMatId ['a'] ['a', 'b'] (by decide)

/-- C9: scoring a sequence of valid PB names against itself returns, at each
position, the diagonal entry of the substitution matrix for that position's
symbol. -/
theorem self_score_diagonal (m : List (List ℚ)) (s : List Char)
    (hs : ∀ c ∈ s, c ∈ NAMES) :
    compute_score_by_position m s s =
      .ok (s.map (fun c => lookup m (NAMES.indexOf c) (NAMES.indexOf c))) := by
  unfold compute_score_by_position
  rw [if_pos rfl]
  exact scorePairs_self s hs

theorem self_score_diagonal_witness :
    compute_score_by_position exMatId ['a', 'c'] ['a', 'c'] =
      .ok ((['a', 'c'] : List Char).map
        (fun c => lookup exMatId (NAMES.indexOf c) (NAMES.indexOf c))) :=
  self_score_diagonal exMatId ['a', 'c'] (by decide)

/-- C7: if some aligned position of two equal-length sequences holds a
non-wildcard symbol outside the 16-letter PB alphabet (with no wildcard at that
position), `compute_score_by_position` fails with `InvalidBlockError` whose
payload names the offending symbol(s) of such a position, and the payload is
nonempty. -/
theorem invalid_symbol_fails (m : List (List ℚ)) (s1 s2 : List Char)
    (hlen : s1.length = s2.length)
    (hbad : ∃ i, i < s1.length ∧ ¬(s1.getD i 'a').toLower = 'z' ∧
      ¬(s2.getD i 'a').toLower = 'z' ∧ (s1.getD i 'a' ∉ NAMES ∨ s2.getD i 'a' ∉ NAMES)) :
    ∃ b1 b2, (b1 ∉ NAMES ∨ b2 ∉ NAMES) ∧ ¬b1.toLower = 'z' ∧ ¬b2.toLower = 'z' ∧
      (∃ j, j < s1.length ∧ s1.getD j 'a' = b1 ∧ s2.getD j 'a' = b2) ∧
      compute_score_by_position m s1 s2 = .error (.invalidBlock (invalidsOf b1 b2)) ∧
      invalidsOf b1 b2 ≠ [] := by
  unfold compute_score_by_position
  rw [if_pos hlen]
  obtain ⟨i, hi, h1, h2, h3⟩ := hbad
  have hi2 : i < s2.length := hlen ▸ hi
  have hzlen : i < (s1.zip s2).length := by
    rw [List.length_zip]
    exact lt_min hi hi2
  have hpair : (s1.zip s2).getD i ('a', 'a') = (s1.getD i 'a', s2.getD i 'a') :=
    zip_getD s1 s2 i 'a' 'a' hi hi2
  have hmem : (s1.getD i 'a', s2.getD i 'a') ∈ s1.zip s2 := by
    rw [← hpair]
    exact getD_mem _ _ hzlen
  obtain ⟨q, hq, hq1, hq2, hq3, hqe⟩ :=
    scorePairs_invalid (m := m) ⟨(s1.getD i 'a', s2.getD i 'a'), hmem, h1, h2, h3⟩
  obtain ⟨j, hj1, _, hj3, hj4⟩ := mem_zip_getD hq
  exact ⟨q.1, q.2, hq3, hq1, hq2, ⟨j, hj1, hj3, hj4⟩, hqe, invalidsOf_ne_nil hq3⟩

theorem invalid_symbol_fails_witness :
    ∃ b1 b2, (b1 ∉ NAMES ∨ b2 ∉ NAMES) ∧ ¬b1.toLower = 'z' ∧ ¬b2.toLower = 'z' ∧
      (∃ j, j < (['a', 'q'] : List Char).length ∧ (['a', 'q'] : List Char).getD j 'a' = b1 ∧
        (['a', 'a'] : List Char).getD j 'a' = b2) ∧
      compute_score_by_position exMatId ['a', 'q'] ['a', 'a'] =
        .error (.invalidBlock (invalidsOf b1 b2)) ∧
      invalidsOf b1 b2 ≠ [] :=
  invalid_symbol_fails exMatId ['a', 'q'] ['a', 'a'] rfl ⟨1, by decide, by decide, by decide,
    by decide⟩

/-- C1 (corrected): in the distance-matrix builder `distance_matrix`, after the
raw pairwise similarity scores are computed, every diagonal entry of the raw
score matrix is overwritten with the **maximum** (not the minimum) value among
the raw self-similarity scores, and off-diagonal entries are left unchanged,
before normalization. -/
theorem diag_flatten_max_policy (m : List (List ℚ)) (seqs : List (List Char))
    (raw : List (List ℚ)) (i j : ℕ) (hraw : rawMatrix m seqs = .ok raw)
    (hi : i < seqs.length) (hj : j < seqs.length) :
    lookup (flattenDiagonal raw) i j =
      if i = j then listMax (diagOf raw) else lookup raw i j := by
  obtain ⟨hlen, hrows, _⟩ := rawMatrix_ok hraw
  exact flattenDiagonal_lookup raw (by rw [hlen]; exact hi) (by rw [hrows i hi]; exact hj)

theorem diag_flatten_max_policy_witness :
    lookup (flattenDiagonal [[1, 2], [2, 3]]) 0 0 =
      if 0 = 0 then listMax (diagOf [[1, 2], [2, 3]]) else lookup [[1, 2], [2, 3]] 0 0 :=
  diag_flatten_max_policy exMatDiag [['a'], ['b']] [[1, 2], [2, 3]] 0 0
    (by simp +decide [rawMatrix, collectE, rawScore, substitution_score,
      compute_score_by_position, scorePairs, lookup, exMatDiag, mkMatrix16, List.range_succ,
      NAMES, Except.map, Except.bind, bind, pure, Except.pure])
    (by decide) (by decide)

/-- C1 (counterexample to the claim as stated): on the valid one-letter
sequences `a` and `b` with the symmetric matrix `exMatDiag`, the raw score
matrix is [[1,2],[2,3]], the minimum raw self-similarity is 1, yet the builder's
diagonal-flattening step writes 3 (the maximum) on the diagonal, not 1. -/
theorem diag_flatten_min_counterexample :
    ValidSeq ['a'] ∧ ValidSeq ['b'] ∧ IsValidMatrix exMatDiag ∧ IsSymmetric16 exMatDiag ∧
    rawMatrix exMatDiag [['a'], ['b']] = .ok [[1, 2], [2, 3]] ∧
    diagOf [[1, 2], [2, 3]] = [1, 3] ∧
    listMin [(1 : ℚ), 3] = 1 ∧
    flattenDiagonal [[1, 2], [2, 3]] = [[3, 2], [2, 3]] ∧
    lookup [[3, 2], [2, 3]] 0 0 ≠ listMin [(1 : ℚ), 3] := by
  refine ⟨by decide, by decide, by decide, by decide, ?_, by decide, by decide, by decide,
    by decide⟩
  simp +decide [rawMatrix, collectE, rawScore, substitution_score, compute_score_by_position,
    scorePairs, lookup, exMatDiag, mkMatrix16, List.range_succ, NAMES, Except.map,
    Except.bind, bind, pure, Except.pure]

/-- C3: when, after diagonal flattening, all entries of the raw score matrix are
equal (`maxi == mini`), `distance_matrix` fails — modelled by the `degenerate`
error, since numpy's 0/0 division produces NaN everywhere and the final
assertions necessarily fail — and returns no matrix. -/
theorem distance_matrix_degenerate_fails (sequences : List (List Char))
    (m raw : List (List ℚ)) (hraw : rawMatrix m sequences = .ok raw)
    (hdeg : matMax (flattenDiagonal raw) = matMin (flattenDiagonal raw)) :
    distance_matrix sequences m = .error .degenerate ∧
    ∀ D, distance_matrix sequences m ≠ .ok D := by
  have hmain : distance_matrix sequences m = .error .degenerate := by
    unfold distance_matrix
    rw [hraw]
    dsimp only
    rw [if_pos hdeg]
  exact ⟨hmain, fun D hD => by rw [hmain] at hD; cases hD⟩

theorem distance_matrix_degenerate_fails_witness :
    distance_matrix [['a']] exMatGood = .error .degenerate ∧
    ∀ D, distance_matrix [['a']] exMatGood ≠ .ok D :=
  distance_matrix_degenerate_fails [['a']] exMatGood [[2]]
    (by simp +decide [rawMatrix, collectE, rawScore, substitution_score,
      compute_score_by_position, scorePairs, lookup, exMatGood, mkMatrix16, List.range_succ,
      NAMES, Except.map, Except.bind, bind, pure, Except.pure])
    (by decide)

/-- C10: the legacy `compute_score` of PBclust.py removes every wildcard from
both sequences before zipping, so its total is the sum over the *stripped*
sequences zipped together (truncating to the shorter one): on `za` vs `ab`, the
surviving `a` of the first sequence is scored against the `a` at the other
sequence's first position instead of its aligned partner `b`, the trailing `b`
is ignored, and the result (1 with the identity-pattern matrix) differs from the
aligned wildcard-contributes-zero score (0) computed by PBlib's
`substitution_score`. -/
theorem clust_compute_score_shifts_wildcards :
    (∀ (m : List (List ℚ)) (s1 s2 : List Char), s1.length = s2.length →
      clust_compute_score m s1 s2 = some ((((stripWildcards s1).zip (stripWildcards s2)).map
        (fun p => lookup m (NAMES.indexOf p.1) (NAMES.indexOf p.2))).sum)) ∧
    stripWildcards ['z', 'a'] = ['a'] ∧
    stripWildcards ['a', 'b'] = ['a', 'b'] ∧
    ((stripWildcards ['z', 'a']).zip (stripWildcards ['a', 'b'])).length = 1 ∧
    clust_compute_score exMatId ['z', 'a'] ['a', 'b'] = some 1 ∧
    substitution_score exMatId ['z', 'a'] ['a', 'b'] = .ok 0 ∧
    clust_compute_score exMatId ['z', 'a'] ['a', 'b'] ≠ some 0 := by
  refine ⟨?_, by decide, by decide, by decide, ?_, ?_, ?_⟩
  · intro m s1 s2 h
    unfold clust_compute_score
    rw [if_pos h, foldl_add_eq_sum, zero_add]
  · simp +decide [clust_compute_score, stripWildcards, lookup, exMatId, mkMatrix16,
      List.range_succ, NAMES]
  · simp +decide [substitution_score, compute_score_by_position, scorePairs, Except.map,
      lookup, exMatId, mkMatrix16, List.range_succ, NAMES]
  · simp +decide [clust_compute_score, stripWildcards, lookup, exMatId, mkMatrix16,
      List.range_succ, NAMES]

theorem clust_compute_score_shifts_wildcards_witness :
    clust_compute_score exMatId ['z', 'a'] ['a', 'b'] =
      some ((((stripWildcards ['z', 'a']).zip (stripWildcards ['a', 'b'])).map
        (fun p => lookup exMatId (NAMES.indexOf p.1) (NAMES.indexOf p.2))).sum) :=
  clust_compute_score_shifts_wildcards.1 exMatId ['z', 'a'] ['a', 'b'] rfl

/-- C2 (corrected): every matrix that `distance_matrix` returns is square of the
right size, symmetric, has all entries in [0,1], and has an exactly-zero
diagonal — these are enforced by the function's final assertions (for some
valid inputs no matrix is returned at all; see the counterexample). -/
theorem distance_matrix_invariants (sequences : List (List Char)) (m D : List (List ℚ))
    (hok : distance_matrix sequences m = .ok D) :
    D.length = sequences.length ∧
    (∀ i, i < sequences.length → (D.getD i []).length = sequences.length) ∧
    (∀ i j, i < sequences.length → j < sequences.length → lookup D i j = lookup D j i) ∧
    (∀ i j, i < sequences.length → j < sequences.length →
      0 ≤ lookup D i j ∧ lookup D i j ≤ 1) ∧
    (∀ i, i < sequences.length → lookup D i i = 0) := by
  obtain ⟨raw, hraw, hD, hmin, hmax, hdiag⟩ := distance_matrix_ok hok
  obtain ⟨hrl, hrow, _⟩ := rawMatrix_ok hraw
  have hfl : (flattenDiagonal raw).length = raw.length := flattenDiagonal_length raw
  have hDlen : D.length = sequences.length := by
    rw [hD, List.length_map, hfl, hrl]
  have hDrow : ∀ i, i < sequences.length → (D.getD i []).length = sequences.length := by
    intro i hi
    rw [hD, getD_map_of_lt _ _ [] [] (by rw [hfl, hrl]; exact hi), List.length_map,
      flattenDiagonal_row_length raw (by rw [hrl]; exact hi), hrow i hi]
  have hDlookup : ∀ i j, i < sequences.length → j < sequences.length →
      lookup D i j = 1 - (lookup (flattenDiagonal raw) i j - matMin (flattenDiagonal raw)) /
        (matMax (flattenDiagonal raw) - matMin (flattenDiagonal raw)) := by
    intro i j hi hj
    rw [hD]
    exact map_map_lookup _ _ (by rw [hfl, hrl]; exact hi)
      (by rw [flattenDiagonal_row_length raw (by rw [hrl]; exact hi), hrow i hi]; exact hj)
  have hsymm : ∀ i j, i < sequences.length → j < sequences.length →
      lookup D i j = lookup D j i := by
    intro i j hi hj
    rw [hDlookup i j hi hj, hDlookup j i hj hi]
    have hfsym : lookup (flattenDiagonal raw) i j = lookup (flattenDiagonal raw) j i := by
      rw [flattenDiagonal_lookup raw (by rw [hrl]; exact hi) (by rw [hrow i hi]; exact hj),
        flattenDiagonal_lookup raw (by rw [hrl]; exact hj) (by rw [hrow j hj]; exact hi)]
      by_cases hij : i = j
      · rw [if_pos hij, if_pos hij.symm]
      · rw [if_neg hij, if_neg (Ne.symm hij)]
        exact rawMatrix_symm hraw hi hj
    rw [hfsym]
  have hbounds : ∀ i j, i < sequences.length → j < sequences.length →
      0 ≤ lookup D i j ∧ lookup D i j ≤ 1 := by
    intro i j hi hj
    have hm2 : lookup D i j ∈ D.flatten :=
      lookup_mem_flatten (by rw [hDlen]; exact hi) (by rw [hDrow i hi]; exact hj)
    exact ⟨le_trans hmin (listMin_le hm2), le_trans (le_listMax hm2) hmax⟩
  refine ⟨hDlen, hDrow, hsymm, hbounds, ?_⟩
  intro i hi
  have hdmem : lookup D i i ∈ diagOf D := lookup_mem_diagOf (by rw [hDlen]; exact hi)
  have hdpos : ∀ x ∈ diagOf D, 0 ≤ x := by
    intro x hx
    unfold diagOf at hx
    obtain ⟨t, htr, hxt⟩ := List.mem_map.mp hx
    have ht : t < sequences.length := by
      rw [← hDlen]
      exact List.mem_range.mp htr
    rw [← hxt]
    exact (hbounds t t ht ht).1
  exact all_zero_of_sum_zero_nonneg hdpos hdiag _ hdmem

theorem distance_matrix_invariants_witness :
    distance_matrix [['a'], ['b']] exMatGood = .ok [[0, 1], [1, 0]] ∧
    lookup [[0, 1], [1, 0]] 0 0 = 0 ∧
    lookup [[0, 1], [1, 0]] 0 1 = lookup [[0, 1], [1, 0]] 1 0 ∧
    (0 ≤ lookup [[0, 1], [1, 0]] 0 1 ∧ lookup [[0, 1], [1, 0]] 0 1 ≤ 1) := by
  have h : distance_matrix [['a'], ['b']] exMatGood = .ok [[0, 1], [1, 0]] := by
    have h1 : rawMatrix exMatGood [['a'], ['b']] = .ok [[2, 1], [1, 2]] := by
      simp +decide [rawMatrix, collectE, rawScore, substitution_score,
        compute_score_by_position, scorePairs, lookup, exMatGood, mkMatrix16, List.range_succ,
        NAMES, Except.map, Except.bind, bind, pure, Except.pure]
    rw [distance_matrix, h1]
    norm_num [flattenDiagonal, diagOf, lookup, listMax, listMin, matMin, matMax,
      List.range_succ]
  have hinv := distance_matrix_invariants [['a'], ['b']] exMatGood [[0, 1], [1, 0]] h
  exact ⟨h, hinv.2.2.2.2 0 (by decide), hinv.2.2.1 0 1 (by decide) (by decide),
    hinv.2.2.2.1 0 1 (by decide) (by decide)⟩

/-- C2 (counterexample to the claim as stated): on the valid equal-length
sequences `a`, `b` and the symmetric 16x16 matrix `exMatOffDiag`, whose maximum
similarity is attained off-diagonal, the raw scores are not all equal yet
`distance_matrix` returns no matrix at all: the normalized diagonal is nonzero,
so the final diagonal assertion fails. -/
theorem distance_matrix_total_counterexample :
    ValidSeq ['a'] ∧ ValidSeq ['b'] ∧ IsValidMatrix exMatOffDiag ∧
    IsSymmetric16 exMatOffDiag ∧
    rawMatrix exMatOffDiag [['a'], ['b']] = .ok [[0, 5], [5, 0]] ∧
    matMax (flattenDiagonal [[0, 5], [5, 0]]) ≠ matMin (flattenDiagonal [[0, 5], [5, 0]]) ∧
    distance_matrix [['a'], ['b']] exMatOffDiag = .error .assertionFailed ∧
    ∀ D, distance_matrix [['a'], ['b']] exMatOffDiag ≠ .ok D := by
  have h1 : rawMatrix exMatOffDiag [['a'], ['b']] = .ok [[0, 5], [5, 0]] := by
    simp +decide [rawMatrix, collectE, rawScore, substitution_score,
      compute_score_by_position, scorePairs, lookup, exMatOffDiag, mkMatrix16,
      List.range_succ, NAMES, Except.map, Except.bind, bind, pure, Except.pure]
  have h2 : distance_matrix [['a'], ['b']] exMatOffDiag = .error .assertionFailed := by
    rw [distance_matrix, h1]
    norm_num [flattenDiagonal, diagOf, lookup, listMax, listMin, matMin, matMax,
      List.range_succ]
  exact ⟨by decide, by decide, by decide, by decide, h1, by decide, h2,
    fun D hD => by rw [h2] at hD; cases hD⟩

/-- C8: the substitution-matrix loader rejects any parsed table that is not
16x16 with the shape error; on a 16x16 table with an asymmetric cell it fails
with an asymmetry error reporting the row-major-first offending index pair (the
reported pair is asymmetric, and every in-range pair strictly before it in
row-major order is symmetric); a 16x16 symmetric table is accepted and returned
unchanged. -/
theorem load_substitution_matrix_spec :
    (∀ mat, ¬IsValidMatrix mat → load_substitution_matrix mat = .error .formatError) ∧
    (∀ mat, IsValidMatrix mat →
      (∃ i, i < 16 ∧ ∃ j, j < 16 ∧ lookup mat i j ≠ lookup mat j i) →
      ∃ i j, i < 16 ∧ j < 16 ∧ load_substitution_matrix mat = .error (.asymmetry i j) ∧
        lookup mat i j ≠ lookup mat j i ∧
        ∀ p : ℕ × ℕ, p.1 < 16 → p.2 < 16 → lexLt p (i, j) →
          lookup mat p.1 p.2 = lookup mat p.2 p.1) ∧
    (∀ mat, IsValidMatrix mat → IsSymmetric16 mat →
      load_substitution_matrix mat = .ok mat) := by
  have keyL : ∀ mat : List (List ℚ), IsValidMatrix mat →
      rowMajorPairs mat.length (mat.getD 0 []).length = rowMajorPairs 16 16 := by
    intro mat hval
    rw [hval.1, hval.2 _ (getD_mem mat [] (by rw [hval.1]; norm_num))]
  refine ⟨?_, ?_, ?_⟩
  · intro mat h
    unfold load_substitution_matrix
    rw [if_neg h]
  · intro mat hval hbad
    unfold load_substitution_matrix
    rw [if_pos hval, keyL mat hval]
    obtain ⟨i, hi, j, hj, hne⟩ := hbad
    cases hscan : firstAsymmetry mat (rowMajorPairs 16 16) with
    | none =>
      exact absurd
        (firstAsymmetry_none hscan (i, j) (mem_rowMajorPairs.mpr ⟨hi, hj⟩)) hne
    | some q =>
      obtain ⟨qi, qj⟩ := q
      obtain ⟨l₁, l₂, heq, hall, hqne⟩ := firstAsymmetry_some hscan
      have hqmem : (qi, qj) ∈ rowMajorPairs 16 16 := by
        rw [heq]
        exact List.mem_append.mpr (Or.inr (List.mem_cons_self _ _))
      obtain ⟨hqi, hqj⟩ := mem_rowMajorPairs.mp hqmem
      refine ⟨qi, qj, hqi, hqj, rfl, hqne, ?_⟩
      intro p hp1 hp2 hplex
      have hpmem : p ∈ rowMajorPairs 16 16 := mem_rowMajorPairs.mpr ⟨hp1, hp2⟩
      rw [heq] at hpmem
      rcases List.mem_append.mp hpmem with hin | hin
      · exact hall p hin
      · rcases List.mem_cons.mp hin with hpp | hin2
        · subst hpp
          exact (lexLt_asymm hplex hplex).elim
        · have hpw := rowMajorPairs_pairwise 16 16
          rw [heq] at hpw
          have hpw2 := (List.pairwise_append.mp hpw).2.1
          have hlt := (List.pairwise_cons.mp hpw2).1 p hin2
          exact (lexLt_asymm hplex hlt).elim
  · intro mat hval hsym
    unfold load_substitution_matrix
    rw [if_pos hval, keyL mat hval]
    cases hscan : firstAsymmetry mat (rowMajorPairs 16 16) with
    | none => rfl
    | some q =>
      obtain ⟨qi, qj⟩ := q
      obtain ⟨l₁, l₂, heq, _, hqne⟩ := firstAsymmetry_some hscan
      have hqmem : (qi, qj) ∈ rowMajorPairs 16 16 := by
        rw [heq]
        exact List.mem_append.mpr (Or.inr (List.mem_cons_self _ _))
      obtain ⟨hqi, hqj⟩ := mem_rowMajorPairs.mp hqmem
      exact absurd (hsym qi hqi qj hqj) hqne

theorem load_substitution_matrix_spec_witness :
    load_substitution_matrix [] = .error .formatError ∧
    (∃ i j, i < 16 ∧ j < 16 ∧ load_substitution_matrix exMatAsym = .error (.asymmetry i j) ∧
      lookup exMatAsym i j ≠ lookup exMatAsym j i ∧
      ∀ p : ℕ × ℕ, p.1 < 16 → p.2 < 16 → lexLt p (i, j) →
        lookup exMatAsym p.1 p.2 = lookup exMatAsym p.2 p.1) ∧
    load_substitution_matrix exMatGood = .ok exMatGood :=
  ⟨load_substitution_matrix_spec.1 [] (by decide),
    load_substitution_matrix_spec.2.1 exMatAsym (by decide)
      ⟨0, by decide, 1, by decide, by decide⟩,
    load_substitution_matrix_spec.2.2 exMatGood (by decide) (by decide)⟩

end PB
